import Mathlib

/-!
Verification of the pdscan match-rendering helpers (src/internal/helpers.go)
against their natural-language specification.

The Go code is shallowly embedded: Go slices become Lean lists, Go strings
become Lean strings (compared by code point, which for valid UTF-8 agrees
with the byte-wise comparison Go uses), and the printing functions are
modelled as functions returning the list of printed lines (ANSI colour
wrapping of the identifier is a terminal-capability concern the spec places
out of scope, so lines are modelled uncoloured).
-/

namespace Pdscan

/-! ## Data model (src/internal/helpers.go, lines 13-51) -/

/-- Embeds the Go struct nameRule (helpers.go lines 13-17). -/
structure nameRule where
  Name : String
  DisplayName : String
  ColumnNames : List String
deriving DecidableEq, Repr

/-- Embeds the Go struct ruleMatch (helpers.go lines 37-45).
LineCount is a Go int, embedded as an unbounded integer. -/
structure ruleMatch where
  RuleName : String
  DisplayName : String
  Confidence : String
  Identifier : String
  MatchedData : List String
  MatchType : String
  LineCount : Int
deriving DecidableEq, Repr

/-- Embeds the Go struct matchInfo (helpers.go lines 47-51).
In Go, Values is a slice that is nil exactly when showData was false;
a nil slice is embedded as none and a non-nil slice as some. -/
structure matchInfo where
  toRuleMatch : ruleMatch
  Description : String
  Values : Option (List String)
deriving DecidableEq, Repr

/-! ## String order used by sort.Strings

Go sorts strings ascending by byte-wise lexicographic comparison, which on
valid UTF-8 agrees with code-point lexicographic comparison.  Lean strings
are lists of code points, so the order is defined structurally on the
underlying character list. -/

/-- Lexicographic less-or-equal on character lists, by code point. -/
def lexLe : List Char → List Char → Bool
  | [], _ => true
  | _ :: _, [] => false
  | a :: as, b :: bs => if a < b then true else if a = b then lexLe as bs else false

/-- The string order used by sort.Strings, as a proposition. -/
def goStrLe (a b : String) : Prop := lexLe a.data b.data = true

instance : DecidableRel goStrLe := fun a b => by unfold goStrLe; infer_instance

theorem lexLe_total (a b : List Char) : lexLe a b = true ∨ lexLe b a = true := by
  induction a generalizing b with
  | nil => left; rfl
  | cons x as ih =>
    cases b with
    | nil => right; rfl
    | cons y bs =>
      rcases lt_trichotomy x y with h | h | h
      · left; simp [lexLe, h]
      · subst h
        rcases ih bs with h2 | h2
        · left; simp [lexLe, h2]
        · right; simp [lexLe, h2]
      · right; simp [lexLe, h]

theorem lexLe_trans {a b c : List Char} (h1 : lexLe a b = true) (h2 : lexLe b c = true) :
    lexLe a c = true := by
  induction a generalizing b c with
  | nil => rfl
  | cons x as ih =>
    cases b with
    | nil => simp [lexLe] at h1
    | cons y bs =>
      cases c with
      | nil => simp [lexLe] at h2
      | cons z cs =>
        simp only [lexLe] at h1 h2 ⊢
        by_cases hxy : x < y
        · by_cases hyz : y < z
          · rw [if_pos (lt_trans hxy hyz)]
          · rw [if_neg hyz] at h2
            by_cases hyz2 : y = z
            · subst hyz2; rw [if_pos hxy]
            · rw [if_neg hyz2] at h2; exact absurd h2 Bool.false_ne_true
        · rw [if_neg hxy] at h1
          by_cases hxy2 : x = y
          · subst hxy2
            rw [if_pos (rfl : x = x)] at h1
            by_cases hxz : x < z
            · rw [if_pos hxz]
            · rw [if_neg hxz] at h2 ⊢
              by_cases hxz2 : x = z
              · subst hxz2
                rw [if_pos (rfl : x = x)] at h2 ⊢
                exact ih h1 h2
              · rw [if_neg hxz2] at h2; exact absurd h2 Bool.false_ne_true
          · rw [if_neg hxy2] at h1; exact absurd h1 Bool.false_ne_true

theorem lexLe_antisymm {a b : List Char} (h1 : lexLe a b = true) (h2 : lexLe b a = true) :
    a = b := by
  induction a generalizing b with
  | nil =>
    cases b with
    | nil => rfl
    | cons y bs => simp [lexLe] at h2
  | cons x as ih =>
    cases b with
    | nil => simp [lexLe] at h1
    | cons y bs =>
      simp only [lexLe] at h1 h2
      by_cases hxy : x < y
      · rw [if_neg (asymm hxy), if_neg hxy.ne'] at h2
        exact absurd h2 Bool.false_ne_true
      · rw [if_neg hxy] at h1
        by_cases hxy2 : x = y
        · subst hxy2
          rw [if_pos (rfl : x = x)] at h1
          rw [if_neg (lt_irrefl x), if_pos (rfl : x = x)] at h2
          rw [ih h1 h2]
        · rw [if_neg hxy2] at h1; exact absurd h1 Bool.false_ne_true

instance : IsTotal String goStrLe := ⟨fun a b => lexLe_total a.data b.data⟩

instance : IsTrans String goStrLe := ⟨fun _ _ _ h1 h2 => lexLe_trans h1 h2⟩

instance : IsAntisymm String goStrLe :=
  ⟨fun a b h1 h2 => by
    cases a with
    | mk da => cases b with
      | mk db => exact congrArg String.mk (lexLe_antisymm h1 h2)⟩

/-- Go sort.Strings: the ascending byte-wise sort of a string slice.  Any
sorting algorithm yields the same result (a sorted list is determined up to
equality by its multiset of elements), so insertion sort is used as the
executable model. -/
def sortStrings (l : List String) : List String := List.insertionSort goStrLe l

/-! ## unique (helpers.go lines 53-63) -/

/-- Loop of the Go function unique: keys is the membership map built so far,
entries already in keys are dropped, first occurrences are kept in order. -/
def uniqueAux (keys : List String) : List String → List String
  | [] => []
  | entry :: rest =>
    if entry ∈ keys then uniqueAux keys rest
    else entry :: uniqueAux (entry :: keys) rest

/-- Embeds the Go function unique (helpers.go lines 53-63): removes
exact-duplicate strings, keeping the first occurrence of each in order. -/
def unique (arr : List String) : List String := uniqueAux [] arr

theorem uniqueAux_spec (keys l : List String) :
    (uniqueAux keys l).Nodup ∧ ∀ x ∈ uniqueAux keys l, x ∈ l ∧ x ∉ keys := by
  induction l generalizing keys with
  | nil => simp [uniqueAux]
  | cons a l ih =>
    by_cases h : a ∈ keys
    · simp only [uniqueAux, if_pos h]
      obtain ⟨h1, h2⟩ := ih keys
      exact ⟨h1, fun x hx => ⟨List.mem_cons_of_mem _ (h2 x hx).1, (h2 x hx).2⟩⟩
    · simp only [uniqueAux, if_neg h]
      obtain ⟨h1, h2⟩ := ih (a :: keys)
      refine ⟨List.nodup_cons.mpr ⟨fun hx => (h2 a hx).2 (List.mem_cons_self a keys), h1⟩, ?_⟩
      intro x hx
      rcases List.mem_cons.mp hx with rfl | hx
      · exact ⟨List.mem_cons_self _ _, h⟩
      · have hm := h2 x hx
        exact ⟨List.mem_cons_of_mem _ hm.1, fun hk => hm.2 (List.mem_cons_of_mem _ hk)⟩

theorem unique_nodup (l : List String) : (unique l).Nodup := (uniqueAux_spec [] l).1

theorem mem_of_mem_unique {l : List String} {x : String} (h : x ∈ unique l) : x ∈ l :=
  ((uniqueAux_spec [] l).2 x h).1

theorem uniqueAux_of_nodup (keys l : List String) (hl : l.Nodup)
    (hd : ∀ x ∈ l, x ∉ keys) : uniqueAux keys l = l := by
  induction l generalizing keys with
  | nil => rfl
  | cons a l ih =>
    have ha : a ∉ keys := hd a (List.mem_cons_self a l)
    simp only [uniqueAux, if_neg ha]
    congr 1
    refine ih (a :: keys) (List.nodup_cons.mp hl).2 ?_
    intro x hx hk
    rcases List.mem_cons.mp hk with rfl | hk
    · exact (List.nodup_cons.mp hl).1 hx
    · exact hd x (List.mem_cons_of_mem _ hx) hk

theorem unique_of_nodup {l : List String} (h : l.Nodup) : unique l = l :=
  uniqueAux_of_nodup [] l h (fun x _ hk => by cases hk)

/-! ## Whitespace collapsing (helpers.go lines 119 and 163-165)

The Go package variable space = regexp.MustCompile of the pattern for one
or more whitespace characters; ReplaceAllString with a single blank replaces
each maximal whitespace run by one blank.  Go regexp whitespace is the set
tab, newline, form feed, carriage return, blank. -/

/-- The characters matched by the Go regexp whitespace shorthand. -/
def isGoSpace (c : Char) : Bool :=
  c = ' ' || c = '\t' || c = '\n' || c = '\x0c' || c = '\r'

/-- Replaces each maximal run of whitespace by a single blank; the flag
records whether the previous character was part of a whitespace run. -/
def collapseAux : Bool → List Char → List Char
  | _, [] => []
  | prevSpace, c :: rest =>
    if isGoSpace c then
      if prevSpace then collapseAux true rest
      else ' ' :: collapseAux true rest
    else c :: collapseAux false rest

/-- Embeds space.ReplaceAllString(v2, " ") from helpers.go line 164. -/
def collapseWs (s : String) : String := String.mk (collapseAux false s.data)

/-! ## Value aggregation (helpers.go lines 155-169)

The body of the showData branch of printMatchList: deduplicate the matched
data, cap at 50 values, collapse whitespace in each retained value, sort. -/

/-- Embeds helpers.go lines 156-168: v := unique(matchedData); if nonempty,
cap at 50, collapse whitespace in place, sort.Strings(v). -/
def aggregateValues (matchedData : List String) : List String :=
  let v := unique matchedData
  if 0 < v.length then
    let v1 := if 50 < v.length then v.take 50 else v
    let v2 := v1.map collapseWs
    sortStrings v2
  else v

/-- The aggregation pipeline in the order the spec states it: deduplicate,
keep the first 50 in first-seen order, collapse whitespace runs, sort. -/
def specValuePipeline (l : List String) : List String :=
  sortStrings (((unique l).take 50).map collapseWs)

theorem aggregateValues_eq (l : List String) :
    aggregateValues l = specValuePipeline l := by
  unfold aggregateValues specValuePipeline
  by_cases h : 0 < (unique l).length
  · simp only [if_pos h]
    by_cases h50 : 50 < (unique l).length
    · simp [if_pos h50]
    · push_neg at h50
      rw [if_neg (by omega), List.take_of_length_le h50]
  · simp only [if_neg h]
    have hnil : unique l = [] := List.eq_nil_of_length_eq_zero (by omega)
    simp [hnil, sortStrings, List.insertionSort]

theorem aggregateValues_length (l : List String) :
    (aggregateValues l).length = min (unique l).length 50 := by
  rw [aggregateValues_eq]
  unfold specValuePipeline sortStrings
  rw [List.length_insertionSort, List.length_map, List.length_take]
  omega

theorem map_collapseWs_fixed {l : List String} (h : ∀ x ∈ l, collapseWs x = x) :
    l.map collapseWs = l := by
  calc l.map collapseWs = l.map id := List.map_congr_left h
  _ = l := List.map_id l

/-! ## pluralize (helpers.go lines 122-133) -/

/-- Embeds strings.HasSuffix from the Go standard library. -/
def goHasSuffix (s suffix : String) : Bool := List.isSuffixOf suffix.data s.data

/-- Embeds the Go function pluralize (helpers.go lines 122-133). -/
def pluralize (count : Int) (singular : String) : String :=
  let singular :=
    if count ≠ 1 then
      if singular = "index" then "indices"
      else if goHasSuffix singular "ch" then singular ++ "es"
      else singular ++ "s"
    else singular
  toString count ++ " " ++ singular

/-- C4: pluralize returns the count, a blank, and the noun, pluralized with
the two irregular cases (index to indices, nouns ending in ch append es)
when the count differs from 1; the four concrete examples from the spec. -/
theorem claim_C4_pluralize :
    (∀ (n : Int) (s : String),
      pluralize n s = toString n ++ " " ++
        (if n = 1 then s
         else if s = "index" then "indices"
         else if goHasSuffix s "ch" then s ++ "es"
         else s ++ "s"))
    ∧ pluralize 0 "email" = "0 emails"
    ∧ pluralize 1 "email" = "1 email"
    ∧ pluralize 2 "index" = "2 indices"
    ∧ pluralize 2 "branch" = "2 branches" := by
  refine ⟨fun n s => ?_, by decide, by decide, by decide, by decide⟩
  unfold pluralize
  by_cases h : n = 1 <;> simp [h]

/-- C1: the aggregation in printMatchList computes exactly the spec
pipeline (dedup, cap at 50 pre-sort, collapse whitespace, sort), and its
output length is the unique-value count capped at 50, hence exactly 50
whenever 51 or more unique values are present. -/
theorem claim_C1_aggregation (l : List String) :
    aggregateValues l = specValuePipeline l
    ∧ (aggregateValues l).length = min (unique l).length 50 :=
  ⟨aggregateValues_eq l, aggregateValues_length l⟩

/-- Witness for C1 at a concrete input. -/
theorem claim_C1_aggregation_witness :
    aggregateValues ["b", "a", "b"] = specValuePipeline ["b", "a", "b"]
    ∧ (aggregateValues ["b", "a", "b"]).length = min (unique ["b", "a", "b"]).length 50 :=
  claim_C1_aggregation ["b", "a", "b"]

/-- C6 counterexample: aggregation is not idempotent as claimed, because
whitespace collapsing runs after deduplication and can create new duplicate
values, which a second aggregation pass then removes. -/
theorem claim_C6_counterexample :
    aggregateValues (aggregateValues ["a b", "a  b"]) ≠ aggregateValues ["a b", "a  b"] := by
  decide

/-- C6 amended: aggregation is idempotent on inputs whose values are already
whitespace-normalized, so that collapsing changes no value. -/
theorem claim_C6_idempotent (l : List String) (hl : ∀ x ∈ l, collapseWs x = x) :
    aggregateValues (aggregateValues l) = aggregateValues l := by
  have hmap : ((unique l).take 50).map collapseWs = (unique l).take 50 :=
    map_collapseWs_fixed fun x hx =>
      hl x (mem_of_mem_unique ((List.take_sublist 50 (unique l)).subset hx))
  have hL : aggregateValues l = sortStrings ((unique l).take 50) := by
    rw [aggregateValues_eq]; unfold specValuePipeline; rw [hmap]
  have hperm : (aggregateValues l).Perm ((unique l).take 50) := by
    rw [hL]; exact List.perm_insertionSort goStrLe _
  have hnodup : (aggregateValues l).Nodup :=
    hperm.nodup_iff.mpr ((unique_nodup l).sublist (List.take_sublist 50 (unique l)))
  have hmem : ∀ x ∈ aggregateValues l, x ∈ l := fun x hx =>
    mem_of_mem_unique ((List.take_sublist 50 (unique l)).subset (hperm.subset hx))
  have hsorted : List.Sorted goStrLe (aggregateValues l) := by
    rw [hL]; exact List.sorted_insertionSort goStrLe _
  have hlen : (aggregateValues l).length ≤ 50 := by
    rw [aggregateValues_length]; omega
  rw [aggregateValues_eq (aggregateValues l)]
  unfold specValuePipeline
  rw [unique_of_nodup hnodup, List.take_of_length_le hlen,
    map_collapseWs_fixed (fun x hx => hl x (hmem x hx))]
  exact hsorted.insertionSort_eq

/-- Witness for C6 amended at a concrete input. -/
theorem claim_C6_idempotent_witness :
    aggregateValues (aggregateValues ["b", "a", "b"]) = aggregateValues ["b", "a", "b"] :=
  claim_C6_idempotent ["b", "a", "b"] (by decide)

/-! ## stringInSlice and matchNameRule (helpers.go lines 65-81) -/

/-- Embeds the Go function stringInSlice (helpers.go lines 65-72). -/
def stringInSlice (a : String) : List String → Bool
  | [] => false
  | b :: rest => if b = a then true else stringInSlice a rest

/-- The zero value of the Go struct nameRule, returned by matchNameRule
when no rule applies. -/
def zeroNameRule : nameRule := { Name := "", DisplayName := "", ColumnNames := [] }

/-- Embeds the Go function matchNameRule (helpers.go lines 74-81). -/
def matchNameRule (name : String) : List nameRule → nameRule
  | [] => zeroNameRule
  | rule :: rest =>
    if stringInSlice name rule.ColumnNames then rule else matchNameRule name rest

/-- Embeds the catalog nameRules (helpers.go lines 87-93). -/
def nameRules : List nameRule :=
  [ { Name := "surname", DisplayName := "last names",
      ColumnNames := ["lastname", "lname", "surname"] },
    { Name := "phone", DisplayName := "phone numbers",
      ColumnNames := ["phone", "phonenumber"] },
    { Name := "date_of_birth", DisplayName := "dates of birth",
      ColumnNames := ["dateofbirth", "birthday", "dob"] },
    { Name := "postal_code", DisplayName := "postal codes",
      ColumnNames := ["zip", "zipcode", "postalcode"] },
    { Name := "oauth_token", DisplayName := "OAuth tokens",
      ColumnNames := ["accesstoken", "refreshtoken"] } ]

theorem stringInSlice_iff (a : String) (l : List String) :
    stringInSlice a l = true ↔ a ∈ l := by
  induction l with
  | nil => simp [stringInSlice]
  | cons b rest ih =>
    by_cases h : b = a
    · simp [stringInSlice, h]
    · simp [stringInSlice, h, ih, List.mem_cons, eq_comm (a := a) (b := b)]

/-- C10: matchNameRule returns the first rule whose ColumnNames contains the
name as an exact string, and the zero-value rule when none does; membership
is exact string membership. -/
theorem claim_C10_matchNameRule :
    (∀ (a : String) (l : List String), stringInSlice a l = true ↔ a ∈ l)
    ∧ (∀ (name : String) (rules : List nameRule),
        matchNameRule name rules =
          ((rules.find? fun r => stringInSlice name r.ColumnNames).getD zeroNameRule)) := by
  refine ⟨stringInSlice_iff, fun name rules => ?_⟩
  induction rules with
  | nil => rfl
  | cons r rest ih =>
    cases hb : stringInSlice name r.ColumnNames with
    | true => simp [matchNameRule, hb, List.find?_cons, ih]
    | false => simp [matchNameRule, hb, List.find?_cons, ih]

/-- Witness for C10 at concrete inputs: the name zip selects the
postal-code rule of the catalog, an unknown name yields the zero rule. -/
theorem claim_C10_matchNameRule_witness :
    (stringInSlice "zip" ["zip", "zipcode"] = true ↔ "zip" ∈ ["zip", "zipcode"])
    ∧ matchNameRule "zip" nameRules =
        ((nameRules.find? fun r => stringInSlice "zip" r.ColumnNames).getD zeroNameRule) :=
  ⟨claim_C10_matchNameRule.1 "zip" ["zip", "zipcode"],
   claim_C10_matchNameRule.2 "zip" nameRules⟩

/-! ## Rendering (helpers.go lines 135-187) -/

/-- The description string computed at helpers.go lines 138-153 for a match
rendered with row noun rowStr. -/
def description (m : ruleMatch) (rowStr : String) : String :=
  if m.MatchType = "name" then
    "possible " ++ m.DisplayName ++ " (name match)"
  else
    let str := pluralize m.LineCount rowStr
    let str := if m.Confidence = "low" then str ++ ", low confidence" else str
    if rowStr = "key" then "found " ++ m.DisplayName
    else "found " ++ m.DisplayName ++ " (" ++ str ++ ")"

/-- The matchInfo built at helpers.go line 171 for one rendered match:
the match itself, its description, and (when showData) the aggregated
values; Values is none exactly when the Go slice stays nil. -/
def renderMatch (showData : Bool) (rowStr : String) (m : ruleMatch) : matchInfo :=
  { toRuleMatch := m
    Description := description m rowStr
    Values := if showData then some (aggregateValues m.MatchedData) else none }

/-- Embeds the Go function printMatch (helpers.go lines 176-187) as the
list of lines it prints: the description line, then, when Values is a
non-nil slice, the indented comma-joined values if nonempty followed by a
blank line. -/
def printMatch (mi : matchInfo) : List String :=
  (mi.toRuleMatch.Identifier ++ ": " ++ mi.Description) ::
    match mi.Values with
    | none => []
    | some values =>
      (if 0 < values.length then ["    " ++ String.intercalate ", " values] else []) ++ [""]

/-- The visibility test at helpers.go line 137. -/
def isRendered (showAll : Bool) (m : ruleMatch) : Bool :=
  showAll || !(m.Confidence == "low")

/-- The sequence of matchInfo values handed to printMatch by the loop of
printMatchList (helpers.go lines 136-173), in order. -/
def renderedInfos : List ruleMatch → Bool → Bool → String → List matchInfo
  | [], _, _, _ => []
  | m :: rest, showData, showAll, rowStr =>
    (if isRendered showAll m then [renderMatch showData rowStr m] else [])
      ++ renderedInfos rest showData showAll rowStr

/-- Embeds the Go function printMatchList (helpers.go lines 135-174) as the
list of lines it prints. -/
def printMatchList : List ruleMatch → Bool → Bool → String → List String
  | [], _, _, _ => []
  | m :: rest, showData, showAll, rowStr =>
    (if isRendered showAll m then printMatch (renderMatch showData rowStr m) else [])
      ++ printMatchList rest showData showAll rowStr

/-- C2: a match contributes rendered output exactly when showAll is set or
its confidence is not low: the rendered infos are the filtered matches in
order, the printed lines are their printMatch renderings, and printMatch
always prints at least one line, so every rendered match yields output. -/
theorem claim_C2_visibility (L : List ruleMatch) (showData showAll : Bool) (rowStr : String) :
    renderedInfos L showData showAll rowStr
      = ((L.filter fun m => showAll || !(m.Confidence == "low")).map
          (renderMatch showData rowStr))
    ∧ printMatchList L showData showAll rowStr
      = ((L.filter fun m => showAll || !(m.Confidence == "low")).map
          (renderMatch showData rowStr)).flatMap printMatch
    ∧ ∀ mi : matchInfo, printMatch mi ≠ [] := by
  refine ⟨?_, ?_, fun mi => by simp [printMatch]⟩
  · induction L with
    | nil => rfl
    | cons m rest ih =>
      cases hb : isRendered showAll m with
      | true => simp_all [renderedInfos, isRendered, List.filter_cons]
      | false => simp_all [renderedInfos, isRendered, List.filter_cons]
  · induction L with
    | nil => rfl
    | cons m rest ih =>
      cases hb : isRendered showAll m with
      | true => simp_all [printMatchList, isRendered, List.filter_cons]
      | false => simp_all [printMatchList, isRendered, List.filter_cons]

/-- Witness for C2 at concrete inputs. -/
theorem claim_C2_visibility_witness :
    renderedInfos [] true false "row"
      = (([] : List ruleMatch).filter fun m => false || !(m.Confidence == "low")).map
          (renderMatch true "row")
    ∧ printMatchList [] true false "row"
      = ((([] : List ruleMatch).filter fun m => false || !(m.Confidence == "low")).map
          (renderMatch true "row")).flatMap printMatch
    ∧ ∀ mi : matchInfo, printMatch mi ≠ [] :=
  claim_C2_visibility [] true false "row"

/-- C3: the description is the possible-form for name matches; otherwise
the found-form with pluralized count and optional low-confidence note in
the parentheses, except that row noun key drops the parenthesized detail. -/
theorem claim_C3_description (m : ruleMatch) (rowStr : String) :
    description m rowStr =
      if m.MatchType = "name" then "possible " ++ m.DisplayName ++ " (name match)"
      else if rowStr = "key" then "found " ++ m.DisplayName
      else "found " ++ m.DisplayName ++ " ("
        ++ (pluralize m.LineCount rowStr
            ++ (if m.Confidence = "low" then ", low confidence" else ""))
        ++ ")" := by
  unfold description
  by_cases h1 : m.MatchType = "name"
  · simp [h1]
  · by_cases h2 : rowStr = "key"
    · simp [h1, h2]
    · by_cases h3 : m.Confidence = "low" <;> simp [h1, h2, h3]

/-- Witness for C3 at a concrete input. -/
theorem claim_C3_description_witness :
    description { RuleName := "email", DisplayName := "emails", Confidence := "low",
                  Identifier := "users.email", MatchedData := [], MatchType := "value",
                  LineCount := 2 } "row" =
      (let m : ruleMatch :=
        { RuleName := "email", DisplayName := "emails", Confidence := "low",
          Identifier := "users.email", MatchedData := [], MatchType := "value",
          LineCount := 2 }
       if m.MatchType = "name" then "possible " ++ m.DisplayName ++ " (name match)"
       else if ("row" : String) = "key" then "found " ++ m.DisplayName
       else "found " ++ m.DisplayName ++ " ("
         ++ (pluralize m.LineCount "row"
             ++ (if m.Confidence = "low" then ", low confidence" else ""))
         ++ ")") :=
  claim_C3_description _ "row"

/-- A value match with no matched data, used to exhibit the blank line that
printMatch prints when showData is requested and no values are present. -/
def emptyDataMatch : ruleMatch :=
  { RuleName := "email", DisplayName := "emails", Confidence := "high",
    Identifier := "users.email", MatchedData := [], MatchType := "value",
    LineCount := 0 }

/-- C5 counterexample: with value display requested and no matched values,
the Go code still prints a blank line after the description, because unique
returns a non-nil empty slice and printMatch tests the slice against nil,
not against emptiness. -/
theorem claim_C5_counterexample :
    (renderMatch true "row" emptyDataMatch).Values = some []
    ∧ printMatch (renderMatch true "row" emptyDataMatch)
        = ["users.email: found emails (0 rows)", ""]
    ∧ printMatch (renderMatch true "row" emptyDataMatch)
        ≠ ["users.email: found emails (0 rows)"] := by
  decide

/-- C5 amended: without value display nothing follows the description line;
with value display the nonempty aggregated values are printed comma-joined
and indented, and a blank line always follows, present even when the match
has no values. -/
theorem claim_C5_valueLines (m : ruleMatch) (rowStr : String) :
    printMatch (renderMatch false rowStr m)
        = [m.Identifier ++ ": " ++ description m rowStr]
    ∧ printMatch (renderMatch true rowStr m)
        = (m.Identifier ++ ": " ++ description m rowStr) ::
            ((if aggregateValues m.MatchedData = [] then []
              else ["    " ++ String.intercalate ", " (aggregateValues m.MatchedData)])
             ++ [""]) := by
  refine ⟨by simp [printMatch, renderMatch], ?_⟩
  by_cases h : aggregateValues m.MatchedData = []
  · simp [printMatch, renderMatch, h]
  · simp [printMatch, renderMatch, h, List.length_pos.mpr h]

/-- Witness for C5 amended at a concrete input. -/
theorem claim_C5_valueLines_witness :
    printMatch (renderMatch false "row" emptyDataMatch)
        = [emptyDataMatch.Identifier ++ ": " ++ description emptyDataMatch "row"]
    ∧ printMatch (renderMatch true "row" emptyDataMatch)
        = (emptyDataMatch.Identifier ++ ": " ++ description emptyDataMatch "row") ::
            ((if aggregateValues emptyDataMatch.MatchedData = [] then []
              else ["    " ++ String.intercalate ", "
                      (aggregateValues emptyDataMatch.MatchedData)])
             ++ [""]) :=
  claim_C5_valueLines emptyDataMatch "row"

/-! ## showLowConfidenceMatchHelp (helpers.go lines 189-199) -/

/-- The filtering loop at helpers.go lines 190-195. -/
def lowConfidenceMatches : List ruleMatch → List ruleMatch
  | [] => []
  | m :: rest =>
    if m.Confidence = "low" then m :: lowConfidenceMatches rest
    else lowConfidenceMatches rest

/-- Embeds the Go function showLowConfidenceMatchHelp (helpers.go lines
189-199) as the list of lines it prints. -/
def showLowConfidenceMatchHelp (matchList : List ruleMatch) : List String :=
  let lows := lowConfidenceMatches matchList
  if 0 < lows.length then
    ["Also found " ++ pluralize (lows.length : Int) "low confidence match"
      ++ ". Use --show-all to view them"]
  else []

theorem lowConfidenceMatches_eq (L : List ruleMatch) :
    lowConfidenceMatches L = L.filter fun m => m.Confidence == "low" := by
  induction L with
  | nil => rfl
  | cons m rest ih =>
    by_cases h : m.Confidence = "low" <;> simp [lowConfidenceMatches, h, List.filter_cons, ih]

theorem pluralize_lowConfidenceMatch (n : Int) :
    pluralize n "low confidence match" =
      toString n ++ " " ++
        (if n = 1 then "low confidence match" else "low confidence matches") := by
  by_cases h : n = 1
  · simp [pluralize, h]
  · have e1 : ("low confidence match" : String) ≠ "index" := by decide
    have e2 : goHasSuffix "low confidence match" "ch" = true := by decide
    have e3 : ("low confidence match" : String) ++ "es" = "low confidence matches" := by decide
    simp [pluralize, h, e1, e2, e3]

/-- C7: the summary line appears exactly when some match has low
confidence, and its count is the number of low-confidence matches,
pluralized to match or matches. -/
theorem claim_C7_lowConfidenceHelp (L : List ruleMatch) :
    showLowConfidenceMatchHelp L =
      (if 0 < (L.filter fun m => m.Confidence == "low").length then
        ["Also found "
          ++ toString ((L.filter fun m => m.Confidence == "low").length : Int)
          ++ " "
          ++ (if (L.filter fun m => m.Confidence == "low").length = 1
              then "low confidence match" else "low confidence matches")
          ++ ". Use --show-all to view them"]
       else [])
    ∧ (showLowConfidenceMatchHelp L ≠ [] ↔ ∃ m ∈ L, m.Confidence = "low") := by
  have hfilter := lowConfidenceMatches_eq L
  constructor
  · unfold showLowConfidenceMatchHelp
    rw [hfilter]
    by_cases h : 0 < (L.filter fun m => m.Confidence == "low").length
    · rw [if_pos h, if_pos h, pluralize_lowConfidenceMatch]
      by_cases h1 : (L.filter fun m => m.Confidence == "low").length = 1
      · simp only [h1, Nat.cast_one, if_pos rfl]
        simp [String.append_assoc]
      · have h1i : ((L.filter fun m => m.Confidence == "low").length : Int) ≠ 1 := by
          exact_mod_cast h1
        simp only [if_neg h1i, if_neg h1]
        simp [String.append_assoc]
    · rw [if_neg h, if_neg h]
  · unfold showLowConfidenceMatchHelp
    rw [hfilter]
    by_cases h : 0 < (L.filter fun m => m.Confidence == "low").length
    · simp only [if_pos h]
      constructor
      · intro _
        obtain ⟨m, hm⟩ := List.exists_mem_of_length_pos h
        have := List.mem_filter.mp hm
        exact ⟨m, this.1, by simpa using this.2⟩
      · intro _
        simp
    · simp only [if_neg h]
      constructor
      · intro hne; exact absurd rfl hne
      · rintro ⟨m, hmem, hlow⟩
        exfalso
        apply h
        apply List.length_pos.mpr
        intro hnil
        have : m ∈ L.filter fun m => m.Confidence == "low" :=
          List.mem_filter.mpr ⟨hmem, by simpa using hlow⟩
        rw [hnil] at this
        cases this

/-- Witness for C7 at a concrete input with one low-confidence match. -/
theorem claim_C7_lowConfidenceHelp_witness :
    showLowConfidenceMatchHelp [{ emptyDataMatch with Confidence := "low" }] =
      (if 0 < ([{ emptyDataMatch with Confidence := "low" }].filter
                fun m => m.Confidence == "low").length then
        ["Also found "
          ++ toString (([{ emptyDataMatch with Confidence := "low" }].filter
                fun m => m.Confidence == "low").length : Int)
          ++ " "
          ++ (if ([{ emptyDataMatch with Confidence := "low" }].filter
                fun m => m.Confidence == "low").length = 1
              then "low confidence match" else "low confidence matches")
          ++ ". Use --show-all to view them"]
       else [])
    ∧ (showLowConfidenceMatchHelp [{ emptyDataMatch with Confidence := "low" }] ≠ []
        ↔ ∃ m ∈ [{ emptyDataMatch with Confidence := "low" }], m.Confidence = "low") :=
  claim_C7_lowConfidenceHelp [{ emptyDataMatch with Confidence := "low" }]

/-! ## Regex rules (helpers.go lines 101-110)

The email and MAC-address patterns are embedded as regular-expression
syntax trees matched with Brzozowski derivatives.  Go regexp finds a match
anywhere in the input; both patterns have the shape of a word boundary,
a core expression, and a word boundary, so a value matches exactly when
some substring is accepted by the core with word boundaries at both ends.
The Go word-character set for boundaries is digits, letters, underscore. -/

/-- Regular expressions over characters: the empty language, the empty
string, a character class given as inclusive code-point ranges,
concatenation, alternation, and Kleene star. -/
inductive RE where
  | emp : RE
  | eps : RE
  | cls : List (Char × Char) → RE
  | cat : RE → RE → RE
  | alt : RE → RE → RE
  | star : RE → RE
deriving DecidableEq, Repr

/-- Membership of a character in a class of inclusive ranges. -/
def inClass (ranges : List (Char × Char)) (c : Char) : Bool :=
  ranges.any fun r => r.1 ≤ c && c ≤ r.2

/-- Whether the regular expression accepts the empty string. -/
def nullable : RE → Bool
  | .emp => false
  | .eps => true
  | .cls _ => false
  | .cat a b => nullable a && nullable b
  | .alt a b => nullable a || nullable b
  | .star _ => true

/-- Concatenation with the usual simplifications. -/
def mkCat (a b : RE) : RE :=
  match a, b with
  | .emp, _ => .emp
  | _, .emp => .emp
  | .eps, b => b
  | a, .eps => a
  | a, b => .cat a b

/-- Alternation with the usual simplifications. -/
def mkAlt (a b : RE) : RE :=
  match a, b with
  | .emp, b => b
  | a, .emp => a
  | a, b => .alt a b

/-- Brzozowski derivative of the regular expression by one character. -/
def reDeriv (r : RE) (c : Char) : RE :=
  match r with
  | .emp => .emp
  | .eps => .emp
  | .cls rs => if inClass rs c then .eps else .emp
  | .cat a b =>
    if nullable a then mkAlt (mkCat (reDeriv a c) b) (reDeriv b c)
    else mkCat (reDeriv a c) b
  | .alt a b => mkAlt (reDeriv a c) (reDeriv b c)
  | .star a => mkCat (reDeriv a c) (.star a)

/-- The regular expression accepts exactly this character list. -/
def accepts (r : RE) (s : List Char) : Bool := nullable (s.foldl reDeriv r)

/-- A single literal character. -/
def chr (c : Char) : RE := .cls [(c, c)]

/-- A literal string. -/
def strToRE (s : String) : RE := s.data.foldr (fun c r => .cat (chr c) r) .eps

/-- One or more repetitions. -/
def rePlus (r : RE) : RE := .cat r (.star r)

/-- Exactly n repetitions. -/
def reRep (r : RE) : Nat → RE
  | 0 => .eps
  | n + 1 => .cat r (reRep r n)

/-- Go regexp word characters: digits, upper and lower case letters,
underscore. -/
def wordClass : List (Char × Char) := [('0', '9'), ('A', 'Z'), ('a', 'z'), ('_', '_')]

/-- The class of word characters together with plus, dot and dash. -/
def wordPlusDotDashClass : List (Char × Char) :=
  wordClass ++ [('+', '+'), ('.', '.'), ('-', '-')]

/-- Lower-case letters, digits and dash. -/
def lowerDigitDashClass : List (Char × Char) := [('a', 'z'), ('0', '9'), ('-', '-')]

/-- Lower-case letters. -/
def lowerClass : List (Char × Char) := [('a', 'z')]

/-- Hexadecimal digits, both cases. -/
def hexClass : List (Char × Char) := [('0', '9'), ('a', 'f'), ('A', 'F')]

/-- The email pattern of helpers.go line 102 between its two word
boundaries: a word character, one or more characters from word-plus-dot-
dash, an at sign or its URL encoding %40, one or more from
lower-digit-dash, any number of groups of a dot and one or more from
lower-digit-dash, then a dot and one or more lower-case letters. -/
def emailCore : RE :=
  .cat (.cls wordClass)
    (.cat (rePlus (.cls wordPlusDotDashClass))
      (.cat (.alt (chr '@') (strToRE "%40"))
        (.cat (rePlus (.cls lowerDigitDashClass))
          (.cat (.star (.cat (chr '.') (rePlus (.cls lowerDigitDashClass))))
            (.cat (chr '.') (rePlus (.cls lowerClass)))))))

/-- The MAC-address pattern of helpers.go line 109 between its two word
boundaries: two hexadecimal digits, then five groups of a colon or its URL
encoding %3A followed by two hexadecimal digits. -/
def macCore : RE :=
  .cat (reRep (.cls hexClass) 2)
    (reRep (.cat (.alt (chr ':') (strToRE "%3A")) (reRep (.cls hexClass) 2)) 5)

/-- Whether a character is a Go regexp word character. -/
def isWordChar (c : Char) : Bool := inClass wordClass c

/-- Word-character test on an optional character; the edge of the input
counts as a non-word character. -/
def wordOpt : Option Char → Bool
  | none => false
  | some c => isWordChar c

/-- A word boundary holds between two positions exactly when the word-ness
of the adjacent characters differs. -/
def boundaryOk (a b : Option Char) : Bool := wordOpt a != wordOpt b

/-- The value contains a substring accepted by the core expression with
word boundaries at both ends, which is how Go regexp matching of the
boundary-delimited rule patterns succeeds on a value. -/
def regexFindsWithBoundaries (core : RE) (s : String) : Prop :=
  ∃ pre mid post : List Char,
    s.data = pre ++ mid ++ post
    ∧ boundaryOk pre.getLast? mid.head? = true
    ∧ boundaryOk mid.getLast? post.head? = true
    ∧ accepts core mid = true

/-- C8: the email rule matches a value whose at sign is URL-encoded as %40,
and the MAC-address rule matches a value whose colon separators are all
URL-encoded as %3A. -/
theorem claim_C8_urlEncodedDelimiters :
    regexFindsWithBoundaries emailCore "user%40example.com"
    ∧ regexFindsWithBoundaries macCore "aa%3Abb%3Acc%3Add%3Aee%3Aff" := by
  constructor
  · exact ⟨[], "user%40example.com".data, [], by simp, by decide, by decide, by decide⟩
  · exact ⟨[], "aa%3Abb%3Acc%3Add%3Aee%3Aff".data, [], by simp, by decide, by decide,
      by decide⟩

/-! ## Freshness of the aggregated value list (helpers.go lines 155-169)

To express that rendering does not mutate MatchedData, the value
aggregation is additionally modelled at the level of Go slices over an
explicit heap of backing arrays: a slice is an array index, an offset and a
length.  unique allocates a fresh backing array at the end of the heap; the
cap v = v[0:50] re-slices without copying; the whitespace loop assigns to
v[i] in place; sort.Strings permutes v in place.  The theorem shows that
the result slice lives in the fresh array, that the data seen through the
MatchedData slice is unchanged, and that the data seen through the result
slice is exactly the pure aggregation. -/

/-- A Go slice header: backing-array index, offset, length. -/
structure goSlice where
  arr : Nat
  off : Nat
  len : Nat
deriving DecidableEq, Repr

/-- The strings visible through a slice of the heap. -/
def sliceData (h : List (List String)) (s : goSlice) : List String :=
  ((h.getD s.arr []).drop s.off).take s.len

/-- In-place update of the slice window of a backing array, applying f to
every element of the window. -/
def writeRange (a : List String) (off len : Nat) (f : String → String) : List String :=
  a.take off ++ ((a.drop off).take len).map f ++ a.drop (off + len)

/-- In-place sort of the slice window of a backing array. -/
def sortRange (a : List String) (off len : Nat) : List String :=
  a.take off ++ sortStrings ((a.drop off).take len) ++ a.drop (off + len)

/-- Heap-level model of helpers.go lines 156-168 for one match: md is the
MatchedData slice; the result is the final heap and the values slice. -/
def aggregateOnHeap (h : List (List String)) (md : goSlice) :
    List (List String) × goSlice :=
  let u := unique (sliceData h md)
  let h1 := h ++ [u]
  let v : goSlice := ⟨h.length, 0, u.length⟩
  if 0 < v.len then
    let v1 : goSlice := if 50 < v.len then { v with len := 50 } else v
    let h2 := h1.set v1.arr (writeRange (h1.getD v1.arr []) v1.off v1.len collapseWs)
    let h3 := h2.set v1.arr (sortRange (h2.getD v1.arr []) v1.off v1.len)
    (h3, v1)
  else (h1, v)

theorem getD_set_self {l : List (List String)} {i : Nat} {a : List String}
    (hi : i < l.length) : (l.set i a).getD i [] = a := by
  simp [List.getD, List.getElem?_set_self', List.getElem?_eq_getElem hi]

theorem getD_concat_length (l : List (List String)) (a : List String) :
    (l ++ [a]).getD l.length [] = a := by
  simp [List.getD, List.getElem?_concat_length]

/-- C9: the values list is built in a freshly allocated array distinct from
the MatchedData backing array, the data visible through MatchedData is
identical before and after, and the fresh array holds exactly the pure
aggregation result. -/
theorem claim_C9_noMutation (h : List (List String)) (md : goSlice)
    (hmd : md.arr < h.length) :
    (aggregateOnHeap h md).2.arr ≠ md.arr
    ∧ sliceData (aggregateOnHeap h md).1 md = sliceData h md
    ∧ sliceData (aggregateOnHeap h md).1 (aggregateOnHeap h md).2
        = aggregateValues (sliceData h md) := by
  have hne : h.length ≠ md.arr := by omega
  set d := sliceData h md with hd
  set u := unique d with hu
  have hgetmd : ∀ (x : List String), (h ++ [x]).getD md.arr [] = h.getD md.arr [] :=
    fun x => List.getD_append h [x] [] md.arr hmd
  by_cases hpos : 0 < u.length
  · have hlen1 : (h ++ [u]).length = h.length + 1 := by simp
    set n := if 50 < u.length then 50 else u.length with hn
    have hnle : n ≤ u.length := by rw [hn]; split <;> omega
    have hv1 : aggregateOnHeap h md =
        (((h ++ [u]).set h.length
            (writeRange ((h ++ [u]).getD h.length []) 0 n collapseWs)).set h.length
          (sortRange
            (((h ++ [u]).set h.length
                (writeRange ((h ++ [u]).getD h.length []) 0 n collapseWs)).getD h.length [])
            0 n),
         ⟨h.length, 0, n⟩) := by
      rw [aggregateOnHeap]
      simp only [← hd, ← hu, if_pos hpos]
      rw [hn]
      split <;> rfl
    have hget1 : (h ++ [u]).getD h.length [] = u := getD_concat_length h u
    set w := writeRange u 0 n collapseWs with hw
    have hget2 : ((h ++ [u]).set h.length w).getD h.length [] = w :=
      getD_set_self (by omega)
    have hv2 : aggregateOnHeap h md =
        (((h ++ [u]).set h.length w).set h.length (sortRange w 0 n), ⟨h.length, 0, n⟩) := by
      rw [hv1, hget1, ← hw, hget2]
    have hwlen : ((u.take n).map collapseWs).length = n := by
      rw [List.length_map, List.length_take]; omega
    have hweq : w = (u.take n).map collapseWs ++ u.drop n := by
      rw [hw, writeRange]; simp
    refine ⟨by rw [hv2]; exact hne, ?_, ?_⟩
    · rw [hv2]
      show sliceData (((h ++ [u]).set h.length w).set h.length (sortRange w 0 n)) md
          = sliceData h md
      have hstep : (((h ++ [u]).set h.length w).set h.length (sortRange w 0 n)).getD
          md.arr [] = (h ++ [u]).getD md.arr [] := by
        simp [List.getD, List.getElem?_set_ne hne, List.getElem?_append, hmd]
      unfold sliceData
      rw [hstep, hgetmd]
    · rw [hv2]
      show sliceData (((h ++ [u]).set h.length w).set h.length (sortRange w 0 n))
          ⟨h.length, 0, n⟩ = aggregateValues d
      have hget3 : (((h ++ [u]).set h.length w).set h.length
          (sortRange w 0 n)).getD h.length [] = sortRange w 0 n :=
        getD_set_self (by rw [List.length_set, hlen1]; omega)
      have htake : u.take n = u.take 50 := by
        by_cases h50 : 50 < u.length
        · rw [hn, if_pos h50]
        · rw [hn, if_neg h50, List.take_length, List.take_of_length_le (by omega)]
      unfold sliceData
      rw [hget3]
      unfold sortRange
      simp only [List.take_zero, List.drop_zero, List.nil_append, Nat.zero_add]
      rw [hweq, List.take_left' hwlen,
        List.take_left' (by rw [sortStrings, List.length_insertionSort]; exact hwlen)]
      rw [aggregateValues_eq]
      unfold specValuePipeline
      rw [← hu, htake]
  · have hv : aggregateOnHeap h md = (h ++ [u], ⟨h.length, 0, u.length⟩) := by
      rw [aggregateOnHeap]
      simp only [← hd, ← hu, if_neg hpos]
    have hunil : u = [] := List.eq_nil_of_length_eq_zero (by omega)
    refine ⟨by rw [hv]; exact hne, ?_, ?_⟩
    · rw [hv]
      show sliceData (h ++ [u]) md = sliceData h md
      unfold sliceData
      rw [hgetmd]
    · rw [hv]
      show sliceData (h ++ [u]) ⟨h.length, 0, u.length⟩ = aggregateValues d
      unfold sliceData
      rw [getD_concat_length, hunil]
      rw [aggregateValues, ← hu, hunil]
      simp

/-- Witness for C9 at a concrete heap with one backing array. -/
theorem claim_C9_noMutation_witness :
    (goSlice.mk 0 0 2).arr < ([["x", "x"]] : List (List String)).length
    ∧ ((aggregateOnHeap [["x", "x"]] ⟨0, 0, 2⟩).2.arr ≠ (goSlice.mk 0 0 2).arr
      ∧ sliceData (aggregateOnHeap [["x", "x"]] ⟨0, 0, 2⟩).1 ⟨0, 0, 2⟩
          = sliceData [["x", "x"]] ⟨0, 0, 2⟩
      ∧ sliceData (aggregateOnHeap [["x", "x"]] ⟨0, 0, 2⟩).1
            (aggregateOnHeap [["x", "x"]] ⟨0, 0, 2⟩).2
          = aggregateValues (sliceData [["x", "x"]] ⟨0, 0, 2⟩)) :=
  ⟨by decide, claim_C9_noMutation [["x", "x"]] ⟨0, 0, 2⟩ (by decide)⟩

end Pdscan
